import Mathlib

/-!
Verification of the `moo` expression-language front end: a shallow embedding of
`src/parser/parser.py` (a precedence-climbing / Pratt parser), `src/parser/ast.py`
(the AST node hierarchy) and `src/lexer/token.py` (the token model), together with
proofs of the stated behavioural properties.

The raw character-scanning tokenizer (`src/lexer/lexer.py`) is not part of the
sources; only its contract is specified (produce the next token on demand; after
the end-of-file token keep producing end-of-file tokens).  It is modelled here as
a finite list of pending tokens padded with end-of-file tokens once exhausted.

The parser's recursive functions are embedded with an explicit fuel parameter;
`ParseResult.outOfFuel` marks fuel exhaustion.  A sufficiency theorem shows that
the fuel chosen by the top-level entry point `parseTokens` is always enough, so
the fuelled functions coincide with the (terminating) recursion of the source.
-/

/-- Token kinds, translated from `TokenType` in `src/lexer/token.py`. -/
inductive TokenType where
  | EOF
  | ILLEGAL
  | INT
  | FLOAT
  | PLUS
  | MINUS
  | ASTERISK
  | SLASH
  | POW
  | MODULUS
  | SEMICOLON
  | LPAREN
  | RPAREN
deriving DecidableEq, Repr

/-- Rendering of a token kind inside diagnostic messages: Python's `str` of an
`Enum` member, as produced by the f-strings in `parser.py` (`TokenType.RPAREN`
and so on). -/
def TokenType.str : TokenType → String
  | .EOF => "TokenType.EOF"
  | .ILLEGAL => "TokenType.ILLEGAL"
  | .INT => "TokenType.INT"
  | .FLOAT => "TokenType.FLOAT"
  | .PLUS => "TokenType.PLUS"
  | .MINUS => "TokenType.MINUS"
  | .ASTERISK => "TokenType.ASTERISK"
  | .SLASH => "TokenType.SLASH"
  | .POW => "TokenType.POW"
  | .MODULUS => "TokenType.MODULUS"
  | .SEMICOLON => "TokenType.SEMICOLON"
  | .LPAREN => "TokenType.LPAREN"
  | .RPAREN => "TokenType.RPAREN"

/-- Tokens, translated from `Token` in `src/lexer/token.py`: a kind, the matched
source text, and a line/column position. -/
structure Token where
  type : TokenType
  literal : String
  line_no : Nat
  position : Nat
deriving DecidableEq, Repr

/-- Precedence levels, translated from `PrecedenceType` in `src/parser/parser.py`
(`P_LOWEST = 0`, the rest assigned by `auto()` in declaration order). -/
inductive PrecedenceType where
  | P_LOWEST
  | P_EQUALS
  | P_LESSGREATER
  | P_SUM
  | P_PRODUCT
  | P_EXPONENT
  | P_PREFIX
  | P_CALL
  | P_INDEX
deriving DecidableEq, Repr

/-- The numeric `.value` of each `PrecedenceType` member. -/
def PrecedenceType.value : PrecedenceType → Nat
  | .P_LOWEST => 0
  | .P_EQUALS => 1
  | .P_LESSGREATER => 2
  | .P_SUM => 3
  | .P_PRODUCT => 4
  | .P_EXPONENT => 5
  | .P_PREFIX => 6
  | .P_CALL => 7
  | .P_INDEX => 8

/-- The `PRECEDENCES` dictionary of `src/parser/parser.py`, as a partial map:
`some` exactly on the keys present in the dictionary. -/
def PRECEDENCES : TokenType → Option PrecedenceType
  | .PLUS => some .P_SUM
  | .MINUS => some .P_SUM
  | .ASTERISK => some .P_PRODUCT
  | .SLASH => some .P_PRODUCT
  | .MODULUS => some .P_PRODUCT
  | .POW => some .P_EXPONENT
  | _ => none

/-- Expression nodes, translated from `src/parser/ast.py`.  The children of
`InfixExpression` are `Option Expression` because the Python constructor stores
whatever value the parser passes, and the parser can pass the absent result
`None` (the annotations in `ast.py` are not enforced at runtime).  A
`FloatLiteral` value is modelled as the exact rational denoted by the decimal
literal. -/
inductive Expression where
  | IntegerLiteral (value : Int)
  | FloatLiteral (value : Rat)
  | InfixExpression (left_node : Option Expression) (operator : String)
      (right_node : Option Expression)

/-- Statement nodes: the only statement form is `ExpressionStatement`, whose
`expr` field is optional (`expr: Optional[Expression] = None` in `ast.py`). -/
inductive Statement where
  | ExpressionStatement (expr : Option Expression)

/-- The root `Program` node of `src/parser/ast.py`: an ordered list of
statements. -/
structure Program where
  statements : List Statement

/-- Numeric value of a list of decimal digit characters. -/
def digitsToNat (cs : List Char) : Nat :=
  cs.foldl (fun acc c => acc * 10 + (c.toNat - 48)) 0

/-- Whether a character list is a non-empty run of decimal digits. -/
def isDigitRun (cs : List Char) : Bool :=
  !cs.isEmpty && cs.all Char.isDigit

/-- Models Python's built-in `int()` applied to a token literal, on the literal
forms relevant here: an optional sign followed by decimal digits succeeds,
anything else fails with `ValueError` (modelled as `none`). -/
def intOfString (s : String) : Option Int :=
  match s.toList with
  | '-' :: rest => if isDigitRun rest then some (-(digitsToNat rest : Int)) else none
  | '+' :: rest => if isDigitRun rest then some (digitsToNat rest : Int) else none
  | cs => if isDigitRun cs then some (digitsToNat cs : Int) else none

/-- Models Python's built-in `float()` applied to a token literal, on the
decimal forms relevant here: an optional sign, then either a digit run, or
`digits.digits` with at least one digit present on one side of the dot.  The
value is the exact rational denoted. -/
def floatOfString (s : String) : Option Rat :=
  let core : List Char → Option Rat := fun cs =>
    match cs.splitOn '.' with
    | [whole] => if isDigitRun whole then some (digitsToNat whole : Rat) else none
    | [whole, frac] =>
        if (whole.all Char.isDigit && frac.all Char.isDigit)
            && (!whole.isEmpty || !frac.isEmpty) then
          some ((digitsToNat whole : Rat) + (digitsToNat frac : Rat) / ((10 : Rat) ^ frac.length))
        else none
    | _ => none
  match s.toList with
  | '-' :: rest => (core rest).map (fun q => -q)
  | '+' :: rest => core rest
  | cs => core cs

/-- Modelled from the spec: the Tokenizer (the missing `src/lexer/lexer.py`) is
specified only through its contract (spec headings 4.1 and 5): `next_token()`
produces the pending tokens in order, and once exhausted keeps producing
end-of-file tokens on every subsequent call (idempotent exhaustion).  It is
modelled as the list of tokens not yet emitted. -/
structure Lexer where
  tokens : List Token
deriving DecidableEq, Repr

/-- The end-of-file token used for padding, matching the placeholder
`Token(TokenType.EOF, "", 0, 0)` built in `Parser.__init__`. -/
def eofToken : Token := { type := .EOF, literal := "", line_no := 0, position := 0 }

/-- Modelled from the spec: `next_token()` of the Tokenizer contract.  Emits the
next pending token, or an end-of-file token forever once the list is
exhausted. -/
def Lexer.next_token : Lexer → Token × Lexer
  | ⟨[]⟩ => (eofToken, ⟨[]⟩)
  | ⟨t :: ts⟩ => (t, ⟨ts⟩)

/-- Parser state, translated from the fields of `Parser` in
`src/parser/parser.py`: the owned lexer, the accumulated diagnostic list, and
the one-token lookahead pair. -/
structure Parser where
  lexer : Lexer
  errors : List String
  current_token : Token
  peek_token : Token
deriving DecidableEq, Repr

/-- `Parser.__next_token`: shift the lookahead window by one token. -/
def Parser.next_token (p : Parser) : Parser :=
  let (t, l) := p.lexer.next_token
  { p with current_token := p.peek_token, peek_token := t, lexer := l }

/-- `Parser.__peek_token_is` (the `is not None` guard is always true in the
embedding, where a token is always present). -/
def Parser.peek_token_is (p : Parser) (tt : TokenType) : Bool :=
  p.peek_token.type = tt

/-- `Parser.__peek_error`: append the checked-advance diagnostic. -/
def Parser.peek_error (p : Parser) (tt : TokenType) : Parser :=
  { p with errors := p.errors ++
      ["Expected next token to be " ++ tt.str ++ ", got " ++ p.peek_token.type.str
        ++ " instead"] }

/-- `Parser.__no_prefix_parse_fn_error`: append the missing-handler
diagnostic. -/
def Parser.no_prefix_parse_fn_error (p : Parser) (tt : TokenType) : Parser :=
  { p with errors := p.errors ++ ["No prefix parse function for " ++ tt.str ++ " found"] }

/-- `Parser.__expect_peek`: on a match advance and succeed, otherwise record the
diagnostic and fail without advancing. -/
def Parser.expect_peek (p : Parser) (tt : TokenType) : Bool × Parser :=
  if p.peek_token_is tt then (true, p.next_token) else (false, p.peek_error tt)

/-- `Parser.__current_precedence`: table lookup with default `P_LOWEST`. -/
def Parser.current_precedence (p : Parser) : PrecedenceType :=
  (PRECEDENCES p.current_token.type).getD .P_LOWEST

/-- `Parser.__peek_precedence`: table lookup with default `P_LOWEST`. -/
def Parser.peek_precedence (p : Parser) : PrecedenceType :=
  (PRECEDENCES p.peek_token.type).getD .P_LOWEST

/-- Whether `Parser.infix_parse_fns` has an entry for a token kind: exactly the
six operator kinds registered in `Parser.__init__`. -/
def infix_fn_exists : TokenType → Bool
  | .PLUS => true
  | .MINUS => true
  | .SLASH => true
  | .ASTERISK => true
  | .POW => true
  | .MODULUS => true
  | _ => false

/-- `Parser.__parse_int_literal`: build an `IntegerLiteral` from the current
token's literal, or record a diagnostic and yield the absent result when the
text does not parse as an integer. -/
def parse_int_literal (p : Parser) : Option Expression × Parser :=
  match intOfString p.current_token.literal with
  | some v => (some (.IntegerLiteral v), p)
  | none =>
      (none, { p with errors := p.errors ++
        ["Could not parse " ++ p.current_token.literal ++ " as an integer."] })

/-- `Parser.__parse_float_literal`: build a `FloatLiteral` from the current
token's literal, or record a diagnostic and yield the absent result. -/
def parse_float_literal (p : Parser) : Option Expression × Parser :=
  match floatOfString p.current_token.literal with
  | some v => (some (.FloatLiteral v), p)
  | none =>
      (none, { p with errors := p.errors ++
        ["Could not parse " ++ p.current_token.literal ++ " as a float."] })

/-- Result of a fuelled parsing function: a value together with the parser state
after the call, or fuel exhaustion. -/
inductive ParseResult (α : Type) where
  | ok (val : α) (st : Parser)
  | outOfFuel
deriving Repr

mutual

/-- `Parser.__parse_expression`, with an explicit fuel parameter; every mutual
call strictly decreases the fuel.  The `match` on the current token kind embeds
the `prefix_parse_fns.get` dictionary lookup of `Parser.__init__` (handlers
exist exactly for `INT`, `FLOAT` and `LPAREN`); after the prefix handler the
folding loop runs, embedded separately as `parse_expression_loop`. -/
def parse_expression (fuel : Nat) (precedence : PrecedenceType) (p : Parser) :
    ParseResult (Option Expression) :=
  match fuel with
  | 0 => .outOfFuel
  | fuel + 1 =>
    match p.current_token.type with
    | .INT =>
        let r := parse_int_literal p
        parse_expression_loop fuel precedence r.1 r.2
    | .FLOAT =>
        let r := parse_float_literal p
        parse_expression_loop fuel precedence r.1 r.2
    | .LPAREN =>
        match parse_grouped_expression fuel p with
        | .outOfFuel => .outOfFuel
        | .ok left p1 => parse_expression_loop fuel precedence left p1
    | tt => .ok none (p.no_prefix_parse_fn_error tt)

/-- The `while` loop of `Parser.__parse_expression` (lines 159-171): while the
next token is not a semicolon and its table precedence strictly exceeds the
threshold, stop if it has no infix handler, otherwise advance past the operator
and fold the left expression through the infix handler. -/
def parse_expression_loop (fuel : Nat) (precedence : PrecedenceType)
    (left_expr : Option Expression) (p : Parser) : ParseResult (Option Expression) :=
  match fuel with
  | 0 => .outOfFuel
  | fuel + 1 =>
    if !p.peek_token_is .SEMICOLON && precedence.value < p.peek_precedence.value then
      if infix_fn_exists p.peek_token.type then
        match parse_infix_expression fuel left_expr p.next_token with
        | .outOfFuel => .outOfFuel
        | .ok newLeft p1 => parse_expression_loop fuel precedence newLeft p1
      else .ok left_expr p
    else .ok left_expr p

/-- `Parser.__parse_infix_expression`: capture the operator text and its
precedence from the current token, advance, parse the right operand at that same
precedence, and bail out with the absent result when the right-hand side could
not be parsed. -/
def parse_infix_expression (fuel : Nat) (left_node : Option Expression) (p : Parser) :
    ParseResult (Option Expression) :=
  match fuel with
  | 0 => .outOfFuel
  | fuel + 1 =>
    let operator := p.current_token.literal
    let precedence := p.current_precedence
    match parse_expression fuel precedence p.next_token with
    | .outOfFuel => .outOfFuel
    | .ok right_expr p1 =>
      match right_expr with
      | none => .ok none p1
      | some r => .ok (some (.InfixExpression left_node operator (some r))) p1

/-- `Parser.__parse_grouped_expression`: consume `(`, parse at the lowest
precedence, and require the matching `)` through the checked advance. -/
def parse_grouped_expression (fuel : Nat) (p : Parser) :
    ParseResult (Option Expression) :=
  match fuel with
  | 0 => .outOfFuel
  | fuel + 1 =>
    match parse_expression fuel .P_LOWEST p.next_token with
    | .outOfFuel => .outOfFuel
    | .ok expr p1 =>
      match p1.expect_peek .RPAREN with
      | (false, p2) => .ok none p2
      | (true, p2) => .ok expr p2

end

/-- `Parser.__parse_expression_statement`: parse one expression at the lowest
precedence, consume an optional terminating semicolon, and wrap the (possibly
absent) expression in an `ExpressionStatement`. -/
def parse_expression_statement (fuel : Nat) (p : Parser) : ParseResult Statement :=
  match parse_expression fuel .P_LOWEST p with
  | .outOfFuel => .outOfFuel
  | .ok expr p1 =>
    let p2 := if p1.peek_token_is .SEMICOLON then p1.next_token else p1
    .ok (.ExpressionStatement expr) p2

/-- `Parser.__parse_statement`: the only statement form is the expression
statement.  It always returns a constructed statement, so the
`if stmt is not None` guard in `parse_program` is always taken. -/
def parse_statement (fuel : Nat) (p : Parser) : ParseResult Statement :=
  parse_expression_statement fuel p

/-- The `while` loop of `Parser.parse_program` (lines 126-130): while the
current token is not end-of-file, parse one statement, append it to the
program's statement list, and advance one token. -/
def parse_program_loop (fuel : Nat) (program : List Statement) (p : Parser) :
    ParseResult (List Statement) :=
  match fuel with
  | 0 => .outOfFuel
  | fuel + 1 =>
    if p.current_token.type ≠ .EOF then
      match parse_statement fuel p with
      | .outOfFuel => .outOfFuel
      | .ok stmt p1 => parse_program_loop fuel (program ++ [stmt]) p1.next_token
    else .ok program p

/-- `Parser.parse_program`: run the statement loop starting from an empty
program. -/
def parse_program (fuel : Nat) (p : Parser) : ParseResult Program :=
  match parse_program_loop fuel [] p with
  | .outOfFuel => .outOfFuel
  | .ok stmts p1 => .ok ⟨stmts⟩ p1

/-- Iteration counter for the `parse_program` loop: the same control flow as
`parse_program_loop`, returning the number of loop iterations executed instead
of the accumulated statements. -/
def parse_program_iters (fuel : Nat) (p : Parser) : ParseResult Nat :=
  match fuel with
  | 0 => .outOfFuel
  | fuel + 1 =>
    if p.current_token.type ≠ .EOF then
      match parse_statement fuel p with
      | .outOfFuel => .outOfFuel
      | .ok _ p1 =>
        match parse_program_iters fuel p1.next_token with
        | .outOfFuel => .outOfFuel
        | .ok n p2 => .ok (n + 1) p2
    else .ok 0 p

/-- `Parser.__init__` applied to a lexer: empty diagnostics, both lookahead
slots primed by two initial advances from the placeholder end-of-file token. -/
def newParser (l : Lexer) : Parser :=
  let p0 : Parser :=
    { lexer := l, errors := [], current_token := eofToken, peek_token := eofToken }
  p0.next_token.next_token

/-- Fuel measure of a parser state: three units per token still inside the
lexer, one more if the current token is not end-of-file, two more if the peek
token is not end-of-file.  `Parser.__next_token` never increases it, and
strictly decreases it while it is positive. -/
def Parser.remaining (p : Parser) : Nat :=
  3 * p.lexer.tokens.length
    + (if p.current_token.type = .EOF then 0 else 1)
    + (if p.peek_token.type = .EOF then 0 else 2)

/-- Top-level entry point: build a parser over the token stream and run
`parse_program` with fuel that the sufficiency theorem proves ample; `none`
would mark fuel exhaustion and never occurs. -/
def parseTokens (tokens : List Token) : Option (Program × Parser) :=
  let p := newParser ⟨tokens⟩
  match parse_program (3 * p.remaining + 4) p with
  | .outOfFuel => none
  | .ok prog p1 => some (prog, p1)

/-- Whether every `InfixExpression` node inside an expression has a present
right operand (the guarantee the infix handler enforces); an absent left child
is tolerated, but a present left child is checked recursively. -/
def rightsPresent : Expression → Bool
  | .IntegerLiteral _ => true
  | .FloatLiteral _ => true
  | .InfixExpression left _ right =>
      (match left with
        | none => true
        | some e => rightsPresent e)
      && (match right with
          | none => false
          | some e => rightsPresent e)

/-- Whether every `InfixExpression` node inside an expression has both a present
left operand and a present right operand, recursively: exactly the property of
walking the node's structured self-description (`json` in `ast.py`) without ever
dereferencing an absent child. -/
def infixChildrenPresent : Expression → Bool
  | .IntegerLiteral _ => true
  | .FloatLiteral _ => true
  | .InfixExpression left _ right =>
      (match left with
        | none => false
        | some e => infixChildrenPresent e)
      && (match right with
          | none => false
          | some e => infixChildrenPresent e)

/-- `rightsPresent` lifted to an optional (possibly absent) parse result. -/
def optRightsPresent : Option Expression → Bool
  | none => true
  | some e => rightsPresent e

/-- A parse result that is present and whose infix nodes all have both children
present. -/
def optChildrenPresent : Option Expression → Bool
  | none => false
  | some e => infixChildrenPresent e

/-- `rightsPresent` on a statement: an absent statement body is tolerated. -/
def Statement.rightsOk : Statement → Bool
  | .ExpressionStatement none => true
  | .ExpressionStatement (some e) => rightsPresent e

/-- `infixChildrenPresent` on a statement: an absent statement body is
tolerated (the claim under scrutiny concerns only `InfixExpression` nodes). -/
def Statement.childrenOk : Statement → Bool
  | .ExpressionStatement none => true
  | .ExpressionStatement (some e) => infixChildrenPresent e

/-- Shorthand for building a token at line 1. -/
def tok (tt : TokenType) (lit : String) (pos : Nat) : Token :=
  { type := tt, literal := lit, line_no := 1, position := pos }

/-- Modelled from the spec: the token sequence the Tokenizer contract (spec
headings 3 and 4.1) produces for the source text `1 + 2 * 3;`. -/
def tokens_1p2t3 : List Token :=
  [tok .INT "1" 0, tok .PLUS "+" 2, tok .INT "2" 4, tok .ASTERISK "*" 6,
   tok .INT "3" 8, tok .SEMICOLON ";" 9, tok .EOF "" 10]

/-- Modelled from the spec: the token sequence for the source text `8 / 4 / 2;`. -/
def tokens_8d4d2 : List Token :=
  [tok .INT "8" 0, tok .SLASH "/" 2, tok .INT "4" 4, tok .SLASH "/" 6,
   tok .INT "2" 8, tok .SEMICOLON ";" 9, tok .EOF "" 10]

/-- Modelled from the spec: the token sequence for the malformed source text
`(1 + 2;` (missing closing parenthesis). -/
def tokens_unclosed : List Token :=
  [tok .LPAREN "(" 0, tok .INT "1" 1, tok .PLUS "+" 3, tok .INT "2" 5,
   tok .SEMICOLON ";" 6, tok .EOF "" 7]

/-- Modelled from the spec: the token sequence for the source text `(1 + 2) * 3;`. -/
def tokens_grouped : List Token :=
  [tok .LPAREN "(" 0, tok .INT "1" 1, tok .PLUS "+" 3, tok .INT "2" 5,
   tok .RPAREN ")" 6, tok .ASTERISK "*" 8, tok .INT "3" 10,
   tok .SEMICOLON ";" 11, tok .EOF "" 12]

/-- Modelled from the spec: the token sequence for the source text `( * ) + 2;`
(every token is one the Tokenizer can emit, and the literals are lexically
consistent with their kinds). -/
def tokens_absent_left : List Token :=
  [tok .LPAREN "(" 0, tok .ASTERISK "*" 2, tok .RPAREN ")" 4, tok .PLUS "+" 6,
   tok .INT "2" 8, tok .SEMICOLON ";" 9, tok .EOF "" 10]

theorem Parser.next_token_errors (p : Parser) : p.next_token.errors = p.errors := by
  obtain ⟨⟨toks⟩, errs, cur, pk⟩ := p
  cases toks <;> rfl

theorem Parser.remaining_next_le (p : Parser) : p.next_token.remaining ≤ p.remaining := by
  obtain ⟨⟨toks⟩, errs, cur, pk⟩ := p
  cases toks <;>
    simp only [Parser.next_token, Lexer.next_token, Parser.remaining, eofToken,
      List.length_cons, List.length_nil] <;>
    split_ifs <;> simp_all <;> omega

theorem Parser.remaining_next_lt (p : Parser) (h : 0 < p.remaining) :
    p.next_token.remaining < p.remaining := by
  obtain ⟨⟨toks⟩, errs, cur, pk⟩ := p
  cases toks <;>
    simp only [Parser.next_token, Lexer.next_token, Parser.remaining, eofToken,
      List.length_cons, List.length_nil] at h ⊢ <;>
    split_ifs at h ⊢ <;> simp_all <;> omega

theorem Parser.remaining_pos_of_current (p : Parser) (h : ¬ p.current_token.type = .EOF) :
    0 < p.remaining := by
  unfold Parser.remaining
  split_ifs <;> simp_all

theorem Parser.remaining_pos_of_peek (p : Parser) (h : ¬ p.peek_token.type = .EOF) :
    0 < p.remaining := by
  unfold Parser.remaining
  split_ifs <;> simp_all

theorem peek_ne_eof_of_prec {p : Parser} {prec : PrecedenceType}
    (h : prec.value < p.peek_precedence.value) : ¬ p.peek_token.type = .EOF := by
  intro he
  simp [Parser.peek_precedence, he, PRECEDENCES, PrecedenceType.value] at h

theorem Parser.peek_error_remaining (p : Parser) (tt : TokenType) :
    (p.peek_error tt).remaining = p.remaining := rfl

theorem Parser.no_prefix_parse_fn_error_remaining (p : Parser) (tt : TokenType) :
    (p.no_prefix_parse_fn_error tt).remaining = p.remaining := rfl

theorem parse_int_literal_remaining (p : Parser) :
    (parse_int_literal p).2.remaining = p.remaining := by
  unfold parse_int_literal
  cases intOfString p.current_token.literal <;> rfl

theorem parse_float_literal_remaining (p : Parser) :
    (parse_float_literal p).2.remaining = p.remaining := by
  unfold parse_float_literal
  cases floatOfString p.current_token.literal <;> rfl

theorem Parser.expect_peek_remaining (p : Parser) (tt : TokenType) :
    (p.expect_peek tt).2.remaining ≤ p.remaining := by
  unfold Parser.expect_peek
  split
  · exact p.remaining_next_le
  · exact le_of_eq (p.peek_error_remaining tt)

/-- Fuel sufficiency for the expression-level functions: with fuel at least a
small linear function of `Parser.remaining`, none of them runs out of fuel, and
each leaves the measure no larger than it found it. -/
theorem parse_fuel_sufficient (fuel : Nat) :
    (∀ p prec, 3 * p.remaining + 3 ≤ fuel →
      ∃ r p1, parse_expression fuel prec p = .ok r p1 ∧ p1.remaining ≤ p.remaining)
  ∧ (∀ p prec left, 3 * p.remaining + 2 ≤ fuel →
      ∃ r p1, parse_expression_loop fuel prec left p = .ok r p1 ∧ p1.remaining ≤ p.remaining)
  ∧ (∀ p left, 3 * p.remaining + 4 ≤ fuel →
      ∃ r p1, parse_infix_expression fuel left p = .ok r p1 ∧ p1.remaining ≤ p.remaining)
  ∧ (∀ p, p.current_token.type = .LPAREN → 3 * p.remaining + 1 ≤ fuel →
      ∃ r p1, parse_grouped_expression fuel p = .ok r p1 ∧ p1.remaining ≤ p.remaining) := by
  induction fuel with
  | zero =>
    exact ⟨fun p prec h => absurd h (by omega), fun p prec left h => absurd h (by omega),
      fun p left h => absurd h (by omega), fun p hc h => absurd h (by omega)⟩
  | succ fuel ih =>
    obtain ⟨ihE, ihL, ihI, ihG⟩ := ih
    refine ⟨?_, ?_, ?_, ?_⟩
    · intro p prec h
      rw [parse_expression]
      cases htt : p.current_token.type
      case INT =>
        have hrem := parse_int_literal_remaining p
        obtain ⟨r, p1, heq, hle⟩ :=
          ihL (parse_int_literal p).2 prec (parse_int_literal p).1 (by omega)
        exact ⟨r, p1, heq, by omega⟩
      case FLOAT =>
        have hrem := parse_float_literal_remaining p
        obtain ⟨r, p1, heq, hle⟩ :=
          ihL (parse_float_literal p).2 prec (parse_float_literal p).1 (by omega)
        exact ⟨r, p1, heq, by omega⟩
      case LPAREN =>
        obtain ⟨r0, p0, hg, hle0⟩ := ihG p htt (by omega)
        rw [hg]
        obtain ⟨r, p1, heq, hle⟩ := ihL p0 prec r0 (by omega)
        exact ⟨r, p1, heq, by omega⟩
      all_goals
        exact ⟨none, _, rfl, le_of_eq (p.no_prefix_parse_fn_error_remaining _)⟩
    · intro p prec left h
      rw [parse_expression_loop]
      by_cases hc : (!p.peek_token_is .SEMICOLON
          && decide (prec.value < p.peek_precedence.value)) = true
      · rw [if_pos hc]
        have hb : prec.value < p.peek_precedence.value := by
          simp only [Bool.and_eq_true, decide_eq_true_eq] at hc
          exact hc.2
        have hpne : ¬ p.peek_token.type = .EOF := peek_ne_eof_of_prec hb
        have hpos : 0 < p.remaining := p.remaining_pos_of_peek hpne
        have hlt : p.next_token.remaining < p.remaining := p.remaining_next_lt hpos
        by_cases hi : infix_fn_exists p.peek_token.type = true
        · rw [if_pos hi]
          obtain ⟨r0, p0, hiq, hle0⟩ := ihI p.next_token left (by omega)
          rw [hiq]
          obtain ⟨r, p1, heq, hle⟩ := ihL p0 prec r0 (by omega)
          exact ⟨r, p1, heq, by omega⟩
        · rw [if_neg hi]
          exact ⟨left, p, rfl, le_refl _⟩
      · rw [if_neg hc]
        exact ⟨left, p, rfl, le_refl _⟩
    · intro p left h
      simp only [parse_infix_expression]
      have hle0 : p.next_token.remaining ≤ p.remaining := p.remaining_next_le
      obtain ⟨r0, p0, he, hle1⟩ := ihE p.next_token p.current_precedence (by omega)
      rw [he]
      cases r0 with
      | none => exact ⟨none, p0, rfl, by omega⟩
      | some rr => exact ⟨_, p0, rfl, by omega⟩
    · intro p hcur h
      rw [parse_grouped_expression]
      have hpos : 0 < p.remaining := p.remaining_pos_of_current (by simp [hcur])
      have hlt : p.next_token.remaining < p.remaining := p.remaining_next_lt hpos
      obtain ⟨r0, p0, he, hle0⟩ := ihE p.next_token .P_LOWEST (by omega)
      rw [he]
      have hle2 := p0.expect_peek_remaining .RPAREN
      rcases hep : p0.expect_peek .RPAREN with ⟨b, p2⟩
      rw [hep] at hle2
      have hle3 : p2.remaining ≤ p0.remaining := hle2
      cases b
      · exact ⟨none, p2, by simp [hep], by omega⟩
      · exact ⟨r0, p2, by simp [hep], by omega⟩

theorem parse_expression_statement_sufficient (fuel : Nat) (p : Parser)
    (h : 3 * p.remaining + 3 ≤ fuel) :
    ∃ stmt p1, parse_expression_statement fuel p = .ok stmt p1 ∧
      p1.remaining ≤ p.remaining := by
  obtain ⟨r, p0, he, hle⟩ := (parse_fuel_sufficient fuel).1 p .P_LOWEST h
  unfold parse_expression_statement
  rw [he]
  refine ⟨_, _, rfl, ?_⟩
  split
  · exact le_trans p0.remaining_next_le hle
  · exact hle

theorem parse_statement_sufficient (fuel : Nat) (p : Parser)
    (h : 3 * p.remaining + 3 ≤ fuel) :
    ∃ stmt p1, parse_statement fuel p = .ok stmt p1 ∧ p1.remaining ≤ p.remaining :=
  parse_expression_statement_sufficient fuel p h

theorem parse_program_loop_sufficient (fuel : Nat) :
    ∀ p acc, 3 * p.remaining + 4 ≤ fuel →
      ∃ stmts p1, parse_program_loop fuel acc p = .ok stmts p1 := by
  induction fuel with
  | zero => intro p acc h; exact absurd h (by omega)
  | succ fuel ih =>
    intro p acc h
    rw [parse_program_loop]
    by_cases hc : p.current_token.type = .EOF
    · rw [if_neg (not_not_intro hc)]
      exact ⟨acc, p, rfl⟩
    · rw [if_pos hc]
      have hpos : 0 < p.remaining := p.remaining_pos_of_current hc
      obtain ⟨stmt, p1, hs, hle⟩ := parse_statement_sufficient fuel p (by omega)
      rw [hs]
      have hnl : p1.next_token.remaining ≤ p1.remaining := p1.remaining_next_le
      have key : 3 * p1.next_token.remaining + 4 ≤ fuel := by
        rcases Nat.eq_zero_or_pos p1.remaining with h0 | hp
        · omega
        · have hlt := p1.remaining_next_lt hp
          omega
      exact ih p1.next_token (acc ++ [stmt]) key

theorem parse_program_sufficient (fuel : Nat) (p : Parser)
    (h : 3 * p.remaining + 4 ≤ fuel) :
    ∃ prog p1, parse_program fuel p = .ok prog p1 := by
  obtain ⟨stmts, p1, hl⟩ := parse_program_loop_sufficient fuel p [] h
  unfold parse_program
  rw [hl]
  exact ⟨⟨stmts⟩, p1, rfl⟩

theorem parseTokens_total (tokens : List Token) :
    ∃ prog p1, parseTokens tokens = some (prog, p1) := by
  obtain ⟨prog, p1, hp⟩ :=
    parse_program_sufficient (3 * (newParser ⟨tokens⟩).remaining + 4) (newParser ⟨tokens⟩)
      (le_refl _)
  refine ⟨prog, p1, ?_⟩
  simp only [parseTokens]
  rw [hp]

theorem parse_int_literal_invariants (p : Parser) (r : Option Expression) (p1 : Parser)
    (h : parse_int_literal p = (r, p1)) :
    (∃ δ, p1.errors = p.errors ++ δ)
    ∧ (r = none → p.errors.length < p1.errors.length)
    ∧ optRightsPresent r = true
    ∧ (p1.errors.length = p.errors.length → optChildrenPresent r = true) := by
  unfold parse_int_literal at h
  cases hi : intOfString p.current_token.literal <;> rw [hi] at h <;>
    obtain ⟨rfl, rfl⟩ := Prod.mk.injEq .. ▸ h <;>
    simp [optRightsPresent, optChildrenPresent, rightsPresent, infixChildrenPresent]

theorem parse_float_literal_invariants (p : Parser) (r : Option Expression) (p1 : Parser)
    (h : parse_float_literal p = (r, p1)) :
    (∃ δ, p1.errors = p.errors ++ δ)
    ∧ (r = none → p.errors.length < p1.errors.length)
    ∧ optRightsPresent r = true
    ∧ (p1.errors.length = p.errors.length → optChildrenPresent r = true) := by
  unfold parse_float_literal at h
  cases hi : floatOfString p.current_token.literal <;> rw [hi] at h <;>
    obtain ⟨rfl, rfl⟩ := Prod.mk.injEq .. ▸ h <;>
    simp [optRightsPresent, optChildrenPresent, rightsPresent, infixChildrenPresent]

theorem expect_peek_errors (p : Parser) (tt : TokenType) (b : Bool) (p1 : Parser)
    (h : p.expect_peek tt = (b, p1)) :
    (∃ δ, p1.errors = p.errors ++ δ)
    ∧ (b = false → p.errors.length < p1.errors.length)
    ∧ (b = true → p1.errors = p.errors) := by
  unfold Parser.expect_peek at h
  split at h
  · obtain ⟨rfl, rfl⟩ := Prod.mk.injEq .. ▸ h
    exact ⟨⟨[], by simp [Parser.next_token_errors]⟩, by simp, fun _ => Parser.next_token_errors p⟩
  · obtain ⟨rfl, rfl⟩ := Prod.mk.injEq .. ▸ h
    exact ⟨⟨_, rfl⟩, fun _ => by simp [Parser.peek_error], by simp⟩

theorem rightsPresent_infix (left : Option Expression) (op : String)
    (right : Option Expression) :
    rightsPresent (.InfixExpression left op right)
      = ((match left with | none => true | some e => rightsPresent e)
         && (match right with | none => false | some e => rightsPresent e)) := by
  rw [rightsPresent.eq_def]

theorem infixChildrenPresent_infix (left : Option Expression) (op : String)
    (right : Option Expression) :
    infixChildrenPresent (.InfixExpression left op right)
      = ((match left with | none => false | some e => infixChildrenPresent e)
         && (match right with | none => false | some e => infixChildrenPresent e)) := by
  rw [infixChildrenPresent.eq_def]

/-- Error-monotonicity and child-presence invariants of the expression-level
functions: diagnostics are append-only; an absent result is always accompanied
by a freshly recorded diagnostic; every constructed `InfixExpression` has a
present right operand; and a run that records no diagnostic produces a present
expression all of whose infix children are present. -/
theorem parse_invariants (fuel : Nat) :
    (∀ p prec r p1, parse_expression fuel prec p = .ok r p1 →
      (∃ δ, p1.errors = p.errors ++ δ)
      ∧ (r = none → p.errors.length < p1.errors.length)
      ∧ optRightsPresent r = true
      ∧ (p1.errors.length = p.errors.length → optChildrenPresent r = true))
  ∧ (∀ p prec left r p1, parse_expression_loop fuel prec left p = .ok r p1 →
      (∃ δ, p1.errors = p.errors ++ δ)
      ∧ (r = none → left = none ∨ p.errors.length < p1.errors.length)
      ∧ (optRightsPresent left = true → optRightsPresent r = true)
      ∧ (p1.errors.length = p.errors.length → optChildrenPresent left = true →
          optChildrenPresent r = true))
  ∧ (∀ p left r p1, parse_infix_expression fuel left p = .ok r p1 →
      (∃ δ, p1.errors = p.errors ++ δ)
      ∧ (r = none → p.errors.length < p1.errors.length)
      ∧ (optRightsPresent left = true → optRightsPresent r = true)
      ∧ (p1.errors.length = p.errors.length → optChildrenPresent left = true →
          optChildrenPresent r = true))
  ∧ (∀ p r p1, parse_grouped_expression fuel p = .ok r p1 →
      (∃ δ, p1.errors = p.errors ++ δ)
      ∧ (r = none → p.errors.length < p1.errors.length)
      ∧ optRightsPresent r = true
      ∧ (p1.errors.length = p.errors.length → optChildrenPresent r = true)) := by
  induction fuel with
  | zero =>
    refine ⟨fun p prec r p1 he => ?_, fun p prec left r p1 he => ?_,
      fun p left r p1 he => ?_, fun p r p1 he => ?_⟩
    · rw [parse_expression] at he
      exact absurd he (by simp)
    · rw [parse_expression_loop] at he
      exact absurd he (by simp)
    · rw [parse_infix_expression] at he
      exact absurd he (by simp)
    · rw [parse_grouped_expression] at he
      exact absurd he (by simp)
  | succ fuel ih =>
    obtain ⟨ihE, ihL, ihI, ihG⟩ := ih
    refine ⟨?_, ?_, ?_, ?_⟩
    · intro p prec r p1 he
      rw [parse_expression] at he
      split at he
      · rcases hil : parse_int_literal p with ⟨r0, q⟩
        rw [hil] at he
        replace he : parse_expression_loop fuel prec r0 q = .ok r p1 := he
        obtain ⟨⟨δh, hδh⟩, hbH, hcH, hdH⟩ := parse_int_literal_invariants p r0 q hil
        obtain ⟨⟨δl, hδl⟩, hbL, hcL, hdL⟩ := ihL q prec r0 r p1 he
        have lh := congrArg List.length hδh
        have ll := congrArg List.length hδl
        simp only [List.length_append] at lh ll
        refine ⟨⟨δh ++ δl, by rw [hδl, hδh, List.append_assoc]⟩, ?_, hcL hcH, ?_⟩
        · intro hr
          rcases hbL hr with h0 | hlen
          · have := hbH h0
            omega
          · omega
        · intro hlen
          exact hdL (by omega) (hdH (by omega))
      · rcases hil : parse_float_literal p with ⟨r0, q⟩
        rw [hil] at he
        replace he : parse_expression_loop fuel prec r0 q = .ok r p1 := he
        obtain ⟨⟨δh, hδh⟩, hbH, hcH, hdH⟩ := parse_float_literal_invariants p r0 q hil
        obtain ⟨⟨δl, hδl⟩, hbL, hcL, hdL⟩ := ihL q prec r0 r p1 he
        have lh := congrArg List.length hδh
        have ll := congrArg List.length hδl
        simp only [List.length_append] at lh ll
        refine ⟨⟨δh ++ δl, by rw [hδl, hδh, List.append_assoc]⟩, ?_, hcL hcH, ?_⟩
        · intro hr
          rcases hbL hr with h0 | hlen
          · have := hbH h0
            omega
          · omega
        · intro hlen
          exact hdL (by omega) (hdH (by omega))
      · split at he
        · exact absurd he (by simp)
        · rename_i r0 q hg
          obtain ⟨⟨δg, hδg⟩, hbG, hcG, hdG⟩ := ihG p r0 q hg
          obtain ⟨⟨δl, hδl⟩, hbL, hcL, hdL⟩ := ihL q prec r0 r p1 he
          have lg := congrArg List.length hδg
          have ll := congrArg List.length hδl
          simp only [List.length_append] at lg ll
          refine ⟨⟨δg ++ δl, by rw [hδl, hδg, List.append_assoc]⟩, ?_, hcL hcG, ?_⟩
          · intro hr
            rcases hbL hr with h0 | hlen
            · have := hbG h0
              omega
            · omega
          · intro hlen
            exact hdL (by omega) (hdG (by omega))
      · injection he with h1 h2
        subst h1
        subst h2
        refine ⟨⟨_, rfl⟩, fun _ => by simp [Parser.no_prefix_parse_fn_error], rfl, ?_⟩
        intro hlen
        simp [Parser.no_prefix_parse_fn_error] at hlen
    · intro p prec left r p1 hl
      rw [parse_expression_loop] at hl
      split at hl
      · split at hl
        · split at hl
          · exact absurd hl (by simp)
          · rename_i newLeft q hm
            obtain ⟨⟨δi, hδi⟩, hbI, hcI, hdI⟩ := ihI p.next_token left newLeft q hm
            obtain ⟨⟨δl, hδl⟩, hbL, hcL, hdL⟩ := ihL q prec newLeft r p1 hl
            have hne : p.next_token.errors = p.errors := p.next_token_errors
            rw [hne] at hδi
            have li := congrArg List.length hδi
            have ll := congrArg List.length hδl
            simp only [List.length_append] at li ll
            refine ⟨⟨δi ++ δl, by rw [hδl, hδi, List.append_assoc]⟩, ?_, ?_, ?_⟩
            · intro hr
              rcases hbL hr with h0 | hlen
              · have := hbI h0
                rw [hne] at this
                right
                omega
              · right
                omega
            · exact fun ho => hcL (hcI ho)
            · intro hlen ho
              exact hdL (by omega) (hdI (by rw [hne]; omega) ho)
        · injection hl with h1 h2
          subst h1
          subst h2
          exact ⟨⟨[], by simp⟩, fun h => .inl h, id, fun _ h => h⟩
      · injection hl with h1 h2
        subst h1
        subst h2
        exact ⟨⟨[], by simp⟩, fun h => .inl h, id, fun _ h => h⟩
    · intro p left r p1 hi
      simp only [parse_infix_expression] at hi
      split at hi
      · exact absurd hi (by simp)
      · rename_i right q he
        obtain ⟨⟨δe, hδe⟩, hbE, hcE, hdE⟩ := ihE p.next_token p.current_precedence right q he
        have hne : p.next_token.errors = p.errors := p.next_token_errors
        rw [hne] at hδe
        have le := congrArg List.length hδe
        simp only [List.length_append] at le
        cases right with
        | none =>
          replace hi : ParseResult.ok (α := Option Expression) none q = .ok r p1 := hi
          injection hi with h1 h2
          subst h1
          subst h2
          have hgt := hbE rfl
          rw [hne] at hgt
          refine ⟨⟨δe, hδe⟩, fun _ => by omega, fun _ => rfl, ?_⟩
          intro hlen _
          exact ((by omega : False)).elim
        | some rr =>
          replace hi :
              ParseResult.ok
                (some (.InfixExpression left p.current_token.literal (some rr))) q
                = .ok r p1 := hi
          injection hi with h1 h2
          subst h1
          subst h2
          refine ⟨⟨δe, hδe⟩, fun h => absurd h (by simp), ?_, ?_⟩
          · intro ho
            simp only [optRightsPresent, rightsPresent_infix, Bool.and_eq_true]
            constructor
            · cases left with
              | none => rfl
              | some l => exact ho
            · exact hcE
          · intro hlen ho
            have hrr : optChildrenPresent (some rr) = true := hdE (by rw [hne]; omega)
            cases left with
            | none => exact absurd ho (by simp [optChildrenPresent])
            | some l =>
              simp only [optChildrenPresent, infixChildrenPresent_infix, Bool.and_eq_true]
              exact ⟨ho, hrr⟩
    · intro p r p1 hg
      rw [parse_grouped_expression] at hg
      split at hg
      · exact absurd hg (by simp)
      · rename_i expr q he
        obtain ⟨⟨δe, hδe⟩, hbE, hcE, hdE⟩ := ihE p.next_token .P_LOWEST expr q he
        have hne : p.next_token.errors = p.errors := p.next_token_errors
        rw [hne] at hδe
        have le := congrArg List.length hδe
        simp only [List.length_append] at le
        rcases hep : q.expect_peek .RPAREN with ⟨b, p2⟩
        rw [hep] at hg
        obtain ⟨⟨δp, hδp⟩, hbP, htP⟩ := expect_peek_errors q .RPAREN b p2 hep
        have lp := congrArg List.length hδp
        simp only [List.length_append] at lp
        cases b
        · replace hg : ParseResult.ok (α := Option Expression) none p2 = .ok r p1 := hg
          injection hg with h1 h2
          subst h1
          subst h2
          have := hbP rfl
          refine ⟨⟨δe ++ δp, by rw [hδp, hδe, List.append_assoc]⟩, fun _ => by omega,
            rfl, ?_⟩
          intro hlen
          exact ((by omega : False)).elim
        · replace hg : ParseResult.ok expr p2 = .ok r p1 := hg
          injection hg with h1 h2
          subst h1
          subst h2
          have hqe := htP rfl
          have lq := congrArg List.length hqe
          refine ⟨⟨δe ++ δp, by rw [hδp, hδe, List.append_assoc]⟩, ?_, hcE, ?_⟩
          · intro hr
            have := hbE hr
            rw [hne] at this
            omega
          · intro hlen
            exact hdE (by rw [hne]; omega)

theorem Statement.rightsOk_mk (r : Option Expression) :
    (Statement.ExpressionStatement r).rightsOk = optRightsPresent r := by
  cases r <;> rfl

theorem Statement.childrenOk_mk (e : Expression) :
    (Statement.ExpressionStatement (some e)).childrenOk = infixChildrenPresent e := rfl

theorem parse_expression_statement_invariants (fuel : Nat) (p : Parser) (stmt : Statement)
    (p1 : Parser) (h : parse_expression_statement fuel p = .ok stmt p1) :
    (∃ δ, p1.errors = p.errors ++ δ)
    ∧ ∃ r, stmt = .ExpressionStatement r
        ∧ optRightsPresent r = true
        ∧ (p1.errors.length = p.errors.length → optChildrenPresent r = true) := by
  unfold parse_expression_statement at h
  split at h
  · exact absurd h (by simp)
  · rename_i expr q he
    obtain ⟨⟨δ, hδ⟩, hb, hc, hd⟩ := (parse_invariants fuel).1 p .P_LOWEST expr q he
    split at h
    · replace h : ParseResult.ok (Statement.ExpressionStatement expr) q.next_token
        = .ok stmt p1 := h
      injection h with h1 h2
      subst h1
      subst h2
      refine ⟨⟨δ, by rw [Parser.next_token_errors, hδ]⟩, expr, rfl, hc, ?_⟩
      intro hlen
      rw [Parser.next_token_errors] at hlen
      exact hd hlen
    · replace h : ParseResult.ok (Statement.ExpressionStatement expr) q = .ok stmt p1 := h
      injection h with h1 h2
      subst h1
      subst h2
      exact ⟨⟨δ, hδ⟩, expr, rfl, hc, hd⟩

theorem parse_statement_invariants (fuel : Nat) (p : Parser) (stmt : Statement)
    (p1 : Parser) (h : parse_statement fuel p = .ok stmt p1) :
    (∃ δ, p1.errors = p.errors ++ δ)
    ∧ ∃ r, stmt = .ExpressionStatement r
        ∧ optRightsPresent r = true
        ∧ (p1.errors.length = p.errors.length → optChildrenPresent r = true) :=
  parse_expression_statement_invariants fuel p stmt p1 h

theorem parse_program_loop_invariants (fuel : Nat) :
    ∀ p acc stmts p1, parse_program_loop fuel acc p = .ok stmts p1 →
      (∃ δ, p1.errors = p.errors ++ δ)
      ∧ (∀ s ∈ stmts, s ∈ acc ∨ s.rightsOk = true)
      ∧ (p1.errors.length = p.errors.length → ∀ s ∈ stmts, s ∈ acc ∨
          (∃ e, s = .ExpressionStatement (some e) ∧ infixChildrenPresent e = true)) := by
  induction fuel with
  | zero =>
    intro p acc stmts p1 h
    rw [parse_program_loop] at h
    exact absurd h (by simp)
  | succ fuel ih =>
    intro p acc stmts p1 h
    rw [parse_program_loop] at h
    split at h
    · split at h
      · exact absurd h (by simp)
      · rename_i stmt q hs
        obtain ⟨⟨δs, hδs⟩, r, hstmt, hrp, hcp⟩ := parse_statement_invariants fuel p stmt q hs
        obtain ⟨⟨δl, hδl⟩, hR, hC⟩ := ih q.next_token (acc ++ [stmt]) stmts p1 h
        rw [Parser.next_token_errors] at hδl
        have ls := congrArg List.length hδs
        have ll := congrArg List.length hδl
        simp only [List.length_append] at ls ll
        refine ⟨⟨δs ++ δl, by rw [hδl, hδs, List.append_assoc]⟩, ?_, ?_⟩
        · intro s hsmem
          rcases hR s hsmem with hmem | hrOk
          · rcases List.mem_append.mp hmem with h1 | h2
            · exact .inl h1
            · have hse : s = stmt := by simpa using h2
              subst hse
              right
              rw [hstmt, Statement.rightsOk_mk]
              exact hrp
          · exact .inr hrOk
        · intro hlen s hsmem
          rcases hC (by rw [Parser.next_token_errors]; omega) s hsmem with hmem | hex
          · rcases List.mem_append.mp hmem with h1 | h2
            · exact .inl h1
            · have hse : s = stmt := by simpa using h2
              subst hse
              right
              have hocp := hcp (by omega)
              cases r with
              | none => exact absurd hocp (by simp [optChildrenPresent])
              | some e => exact ⟨e, by rw [hstmt], hocp⟩
          · exact .inr hex
    · injection h with h1 h2
      subst h1
      subst h2
      exact ⟨⟨[], by simp⟩, fun s hs => .inl hs, fun _ s hs => .inl hs⟩

theorem newParser_errors (l : Lexer) : (newParser l).errors = [] := by
  simp only [newParser, Parser.next_token_errors]

theorem parseTokens_ok {tokens : List Token} {prog : Program} {p1 : Parser}
    (h : parseTokens tokens = some (prog, p1)) :
    parse_program (3 * (newParser ⟨tokens⟩).remaining + 4) (newParser ⟨tokens⟩)
      = .ok prog p1 := by
  simp only [parseTokens] at h
  split at h
  · exact absurd h (by simp)
  · rename_i prog' p1' hp
    injection h with h1
    injection h1 with h2 h3
    subst h2
    subst h3
    exact hp

theorem parseTokens_invariants (tokens : List Token) (prog : Program) (p1 : Parser)
    (h : parseTokens tokens = some (prog, p1)) :
    (∀ s ∈ prog.statements, s.rightsOk = true)
    ∧ (p1.errors = [] → ∀ s ∈ prog.statements,
        ∃ e, s = .ExpressionStatement (some e) ∧ infixChildrenPresent e = true) := by
  have hp := parseTokens_ok h
  unfold parse_program at hp
  split at hp
  · exact absurd hp (by simp)
  · rename_i stmts q hl
    injection hp with h1 h2
    subst h2
    obtain ⟨⟨δ, hδ⟩, hR, hC⟩ :=
      parse_program_loop_invariants _ (newParser ⟨tokens⟩) [] stmts q hl
    have hinit : (newParser ⟨tokens⟩).errors = [] := newParser_errors _
    constructor
    · intro s hs
      rw [← h1] at hs
      rcases hR s hs with hmem | hok
      · exact absurd hmem (List.not_mem_nil s)
      · exact hok
    · intro hnil s hs
      rw [← h1] at hs
      have hlen : q.errors.length = (newParser ⟨tokens⟩).errors.length := by
        rw [hnil, hinit]
      rcases hC hlen s hs with hmem | hex
      · exact absurd hmem (List.not_mem_nil s)
      · exact hex

theorem parse_program_loop_iters (fuel : Nat) :
    ∀ p acc stmts p1, parse_program_loop fuel acc p = .ok stmts p1 →
      ∃ n p2, parse_program_iters fuel p = .ok n p2
        ∧ stmts.length = acc.length + n ∧ p2 = p1 := by
  induction fuel with
  | zero =>
    intro p acc stmts p1 h
    rw [parse_program_loop] at h
    exact absurd h (by simp)
  | succ fuel ih =>
    intro p acc stmts p1 h
    rw [parse_program_loop] at h
    rw [parse_program_iters]
    split at h
    · rename_i hc
      rw [if_pos hc]
      split at h
      · exact absurd h (by simp)
      · rename_i stmt q hs
        obtain ⟨n, p2, hit, hlen, rfl⟩ := ih q.next_token (acc ++ [stmt]) stmts p1 h
        simp only [hs, hit]
        refine ⟨n + 1, _, rfl, ?_, rfl⟩
        simp only [List.length_append, List.length_cons, List.length_nil] at hlen
        omega
    · rename_i hc
      rw [if_neg hc]
      injection h with h1 h2
      subst h1
      subst h2
      exact ⟨0, p, rfl, by omega, rfl⟩

/-- C1: parsing `1 + 2 * 3;` yields a single statement wrapping an
InfixExpression with operator `+`, left child IntegerLiteral 1 and right child
the InfixExpression `2 * 3`: multiplication binds tighter than addition (and no
diagnostic is recorded). -/
theorem claim_C1_precedence :
    (parseTokens tokens_1p2t3).map (fun r => (r.1.statements, r.2.errors))
      = some ([Statement.ExpressionStatement (some (.InfixExpression
          (some (.IntegerLiteral 1)) "+"
          (some (.InfixExpression (some (.IntegerLiteral 2)) "*"
            (some (.IntegerLiteral 3))))))], []) := by
  rfl

/-- C2: parsing `8 / 4 / 2;` yields an InfixExpression with operator `/` whose
left child is the InfixExpression for `8 / 4` and whose right child is
IntegerLiteral 2: equal-precedence operators associate left-to-right. -/
theorem claim_C2_left_assoc :
    (parseTokens tokens_8d4d2).map (fun r => (r.1.statements, r.2.errors))
      = some ([Statement.ExpressionStatement (some (.InfixExpression
          (some (.InfixExpression (some (.IntegerLiteral 8)) "/"
            (some (.IntegerLiteral 4)))) "/"
          (some (.IntegerLiteral 2))))], []) := by
  rfl

/-- C3: parsing the malformed `(1 + 2;` completes (the entry point returns a
result rather than running out of fuel), and the errors list is exactly the one
checked-advance diagnostic recorded by `expect_peek` when the closing
parenthesis is missing. -/
theorem claim_C3_missing_rparen :
    (parseTokens tokens_unclosed).map (fun r => (r.1.statements, r.2.errors))
      = some ([Statement.ExpressionStatement none],
          ["Expected next token to be TokenType.RPAREN, got TokenType.SEMICOLON instead"]) := by
  rfl

/-- C4 (counterexample): on the token stream of `( * ) + 2;` the returned
program contains an InfixExpression whose left operand is absent — the absent
result of the failed grouped expression is passed to the infix handler as the
left operand — so it is false that every InfixExpression in every returned
program has both children present. -/
theorem claim_C4_counterexample :
    (parseTokens tokens_absent_left).map (fun r => (r.1.statements, r.2.errors))
        = some ([.ExpressionStatement (some (.InfixExpression none "+"
            (some (.IntegerLiteral 2))))],
            ["No prefix parse function for TokenType.ASTERISK found"])
    ∧ (parseTokens tokens_absent_left).map
        (fun r => r.1.statements.all Statement.childrenOk) = some false :=
  ⟨rfl, rfl⟩

/-- C4 (amended): every InfixExpression in the returned program has a present
right operand; and whenever the errors list is empty after parsing, every
InfixExpression also has a present left operand (both children present). -/
theorem claim_C4_amended (tokens : List Token) (prog : Program) (p1 : Parser)
    (h : parseTokens tokens = some (prog, p1)) :
    (∀ s ∈ prog.statements, s.rightsOk = true)
    ∧ (p1.errors = [] → ∀ s ∈ prog.statements, s.childrenOk = true) := by
  obtain ⟨hR, hC⟩ := parseTokens_invariants tokens prog p1 h
  refine ⟨hR, fun hnil s hs => ?_⟩
  obtain ⟨e, hse, hicp⟩ := hC hnil s hs
  rw [hse, Statement.childrenOk_mk]
  exact hicp

/-- Witness for the amended C4, at the parse of `7;`. -/
theorem claim_C4_witness :
    (∀ s ∈ (Program.mk [.ExpressionStatement (some (.IntegerLiteral 7))]).statements,
        s.rightsOk = true)
    ∧ ((⟨⟨[]⟩, [], eofToken, eofToken⟩ : Parser).errors = [] →
        ∀ s ∈ (Program.mk [.ExpressionStatement (some (.IntegerLiteral 7))]).statements,
          s.childrenOk = true) :=
  claim_C4_amended [tok .INT "7" 0, tok .SEMICOLON ";" 1]
    ⟨[.ExpressionStatement (some (.IntegerLiteral 7))]⟩
    ⟨⟨[]⟩, [], eofToken, eofToken⟩ rfl

/-- C5: for every input consisting solely of one integer literal token (whose
literal text parses as a base-10 integer, as the token invariant guarantees)
followed by a semicolon token, the parse yields exactly one ExpressionStatement
wrapping an IntegerLiteral with the parsed value, and the errors list is
empty. -/
theorem claim_C5_single_int (lit slit : String) (v : Int) (a b c d : Nat)
    (h : intOfString lit = some v) :
    ∃ p1, parseTokens [⟨.INT, lit, a, b⟩, ⟨.SEMICOLON, slit, c, d⟩]
        = some (⟨[.ExpressionStatement (some (.IntegerLiteral v))]⟩, p1)
      ∧ p1.errors = [] := by
  refine ⟨⟨⟨[]⟩, [], eofToken, eofToken⟩, ?_, rfl⟩
  simp [parseTokens, newParser, Parser.next_token, Lexer.next_token, Parser.remaining,
    parse_program, parse_program_loop, parse_statement, parse_expression_statement,
    parse_expression, parse_expression_loop, parse_int_literal, h,
    Parser.peek_token_is, Parser.peek_precedence, PRECEDENCES, eofToken]

/-- Witness for C5, at the literal `7`. -/
theorem claim_C5_witness :
    intOfString "7" = some 7
    ∧ ∃ p1, parseTokens [⟨.INT, "7", 1, 0⟩, ⟨.SEMICOLON, ";", 1, 1⟩]
        = some (⟨[.ExpressionStatement (some (.IntegerLiteral 7))]⟩, p1)
      ∧ p1.errors = [] :=
  ⟨rfl, claim_C5_single_int "7" ";" 7 1 0 1 1 rfl⟩

/-- C6: parsing `(1 + 2) * 3;` yields an InfixExpression with operator `*`
whose left child is the InfixExpression for `1 + 2` and whose right child is
IntegerLiteral 3: parentheses override operator precedence. -/
theorem claim_C6_grouping :
    (parseTokens tokens_grouped).map (fun r => (r.1.statements, r.2.errors))
      = some ([Statement.ExpressionStatement (some (.InfixExpression
          (some (.InfixExpression (some (.IntegerLiteral 1)) "+"
            (some (.IntegerLiteral 2)))) "*"
          (some (.IntegerLiteral 3))))], []) := by
  rfl

/-- C7: every iteration of the `parse_program` loop appends exactly one
statement: the number of statements in the returned program equals the number
of loop iterations executed (counted by `parse_program_iters`, which shares the
loop's control flow). -/
theorem claim_C7_one_statement_per_iteration (fuel : Nat) (p : Parser)
    (prog : Program) (p1 : Parser) (h : parse_program fuel p = .ok prog p1) :
    ∃ n p2, parse_program_iters fuel p = .ok n p2
      ∧ prog.statements.length = n ∧ p2 = p1 := by
  unfold parse_program at h
  split at h
  · exact absurd h (by simp)
  · rename_i stmts q hl
    injection h with h1 h2
    subst h2
    obtain ⟨n, p2, hit, hlen, hp⟩ := parse_program_loop_iters fuel p [] stmts q hl
    refine ⟨n, p2, hit, ?_, hp⟩
    rw [← h1]
    simpa using hlen

/-- Witness for C7, at the parse of the empty token stream. -/
theorem claim_C7_witness :
    ∃ n p2, parse_program_iters 1 (newParser ⟨[]⟩) = .ok n p2
      ∧ (Program.mk []).statements.length = n ∧ p2 = newParser ⟨[]⟩ :=
  claim_C7_one_statement_per_iteration 1 (newParser ⟨[]⟩) ⟨[]⟩ (newParser ⟨[]⟩) rfl

/-- C8: parsing always terminates — for every finite token stream (whose
modelled tokenizer keeps emitting end-of-file tokens once exhausted), the
entry point returns a result rather than exhausting its fuel, because each loop
iteration advances the token stream. -/
theorem claim_C8_termination (tokens : List Token) :
    (parseTokens tokens).isSome = true := by
  obtain ⟨prog, p1, h⟩ := parseTokens_total tokens
  rw [h]
  rfl

/-- C9: when the current token is an illegal token at an expression position,
the parser has no prefix handler for it: it records the missing-handler
diagnostic, returns the absent expression, and continues (returns normally). -/
theorem claim_C9_illegal_token (p : Parser) (prec : PrecedenceType) (fuel : Nat)
    (h : p.current_token.type = .ILLEGAL) :
    parse_expression (fuel + 1) prec p
      = .ok none { p with errors := p.errors
          ++ ["No prefix parse function for TokenType.ILLEGAL found"] } := by
  rw [parse_expression, h]
  rfl

/-- Witness for C9, at a parser whose current token is illegal. -/
theorem claim_C9_witness :
    (⟨⟨[]⟩, [], tok .ILLEGAL "$" 0, eofToken⟩ : Parser).current_token.type = .ILLEGAL
    ∧ parse_expression 1 .P_LOWEST ⟨⟨[]⟩, [], tok .ILLEGAL "$" 0, eofToken⟩
      = .ok none ⟨⟨[]⟩, ["No prefix parse function for TokenType.ILLEGAL found"],
          tok .ILLEGAL "$" 0, eofToken⟩ :=
  ⟨rfl, claim_C9_illegal_token ⟨⟨[]⟩, [], tok .ILLEGAL "$" 0, eofToken⟩ .P_LOWEST 0 rfl⟩

/-- C10: whenever the returned program contains an absent expression, a
diagnostic was recorded; equivalently, if the errors list is empty after
parsing, every ExpressionStatement in the program carries a present
expression. -/
theorem claim_C10_no_silent_drop (tokens : List Token) (prog : Program) (p1 : Parser)
    (h : parseTokens tokens = some (prog, p1)) (hnil : p1.errors = []) :
    ∀ s ∈ prog.statements, ∃ e, s = .ExpressionStatement (some e) := by
  obtain ⟨-, hC⟩ := parseTokens_invariants tokens prog p1 h
  intro s hs
  obtain ⟨e, hse, -⟩ := hC hnil s hs
  exact ⟨e, hse⟩

/-- Witness for C10, at the parse of `7;` and its single statement. -/
theorem claim_C10_witness :
    ∃ e, Statement.ExpressionStatement (some (.IntegerLiteral 7))
      = .ExpressionStatement (some e) :=
  claim_C10_no_silent_drop [tok .INT "7" 0, tok .SEMICOLON ";" 1]
    ⟨[.ExpressionStatement (some (.IntegerLiteral 7))]⟩
    ⟨⟨[]⟩, [], eofToken, eofToken⟩ rfl rfl
    (.ExpressionStatement (some (.IntegerLiteral 7))) (by simp)
